import Mathlib

/-!
Verification of the layer-squash tool (Rust sources under `src/`).

The development shallowly embeds the code that the claims are about:

* `src/docker/layer.rs`  — `LayerMerger` (virtual filesystem replay, whiteout
  handling, merged-tar emission, validation of `merge_latest_layers` and
  `merge_from_layer_id`, cleanup behaviour of `merge_layers`);
* `src/docker/image.rs`  — the manifest / diff_ids / history rewrite performed
  by `DockerImage::squash_layers`;
* `src/docker/tar.rs`    — `TarBuilder::build`;
* `src/error.rs`         — the error taxonomy.

Paths are modelled as Rust `PathBuf`s: an absoluteness flag plus the list of
normal components (`Path` comparisons in Rust are component-wise, with the
root directory acting as an extra leading component that orders before any
normal component name).  File bodies are lists of bytes (`List Nat`).
-/

namespace Squash

/-- A path as the Rust code sees it: `abs` mirrors a leading `RootDir`
component, `comps` the normal components in order. -/
structure TPath where
  abs : Bool
  comps : List String
deriving DecidableEq

/-- The component list used by Rust `Path` comparisons (`starts_with`, `Ord`):
the root directory behaves as one extra leading component, modelled by the
marker string "/" (a real component never contains a slash). -/
def TPath.compList (p : TPath) : List String :=
  (if p.abs then ["/"] else []) ++ p.comps

/-- A model path is well formed when no component is the root marker; real tar
components never contain a slash, so this is a faithfully checkable side
condition (it makes `TPath.compList` injective). -/
def pathValid (p : TPath) : Prop := "/" ∉ p.comps

/-- Join components with slashes, as `Path::to_string_lossy` renders a path. -/
def joinComps : List String → String
  | [] => ""
  | [c] => c
  | c :: rest => c ++ "/" ++ joinComps rest

/-- The display string of a path (`to_string_lossy`). -/
def pathDisplay (p : TPath) : String :=
  (if p.abs then "/" else "") ++ joinComps p.comps

/-- Two consecutive dots occur in the character list. -/
def hasDotDotChars : List Char → Bool
  | [] => false
  | [_] => false
  | a :: b :: rest => (a == '.' && b == '.') || hasDotDotChars (b :: rest)

/-- The unsafe-path test of `process_layer_tar` (layer.rs line 222):
`path.to_string_lossy().contains("..")` — a plain substring test on the
rendered path. -/
def containsDotDot (p : TPath) : Bool := hasDotDotChars (pathDisplay p).data

/-- Rust `Path::file_name` for a path of normal components: the last one. -/
def fileName (p : TPath) : Option String := p.comps.getLast?

/-- Rust `Path::parent().unwrap_or(Path::new(""))` as used in layer.rs:
drop the last component; the parent of an empty path (`""` or `"/"`) is the
empty relative path. -/
def tparent (p : TPath) : TPath :=
  if p.comps = [] then ⟨false, []⟩ else ⟨p.abs, p.comps.dropLast⟩

/-- Rust `Path::starts_with`: component-list prefix test. -/
def tpStartsWith (p base : TPath) : Bool :=
  base.compList.isPrefixOf p.compList

/-- `filename_str.strip_prefix(".wh.")` (layer.rs line 248), done on the
character list so that it evaluates by `decide`. -/
def stripWh (name : String) : Option String :=
  match name.data with
  | '.' :: 'w' :: 'h' :: '.' :: rest => some (String.mk rest)
  | _ => none

/-- The opaque-whiteout marker name. -/
def opqName : String := ".wh..wh..opq"

/-- Tar header fields that layer.rs preserves through the merge
(mode, uid, gid, mtime, link target, entry type) plus the entry size.
The checksum is a function of the other fields and is not modelled. -/
structure Header where
  entryType : Nat
  mode : Nat
  uid : Nat
  gid : Nat
  mtime : Nat
  linkName : Option String
  size : Nat
deriving DecidableEq

/-- Replace the size field, as `Header::set_size`. -/
def Header.withSize (h : Header) (n : Nat) : Header :=
  ⟨h.entryType, h.mode, h.uid, h.gid, h.mtime, h.linkName, n⟩

/-- One tar entry as read from (or written to) a layer tar: path, header and
body bytes. -/
structure TarEntry where
  path : TPath
  header : Header
  data : List Nat
deriving DecidableEq

/-- `FileData` of layer.rs: in-memory bytes for small files, a (source tar,
offset, size) reference for large ones. -/
inductive FileData where
  | InMemory : List Nat → FileData
  | OnDisk : String → Nat → Nat → FileData
deriving DecidableEq

/-- `FileEntry` of layer.rs: retained header plus body. -/
structure FileEntry where
  header : Header
  data : FileData
deriving DecidableEq

/-- `MAX_MEMORY_FILE_SIZE` (layer.rs line 47). -/
def MAX_MEMORY_FILE_SIZE : Nat := 1024 * 1024

/-- The storage decision of `process_layer_tar` (layer.rs lines 230-243):
bodies of entries whose header size is at most 1 MiB are kept in memory,
larger ones become an `OnDisk` reference with offset 0. -/
def mkFileData (tar_path : String) (hd : Header) (data : List Nat) : FileData :=
  if hd.size ≤ MAX_MEMORY_FILE_SIZE then FileData.InMemory data
  else FileData.OnDisk tar_path 0 hd.size

/-- `VirtualFilesystem.files`: a finite map from path to
`Option FileEntry` (`none` is a whiteout tombstone).  The Rust `HashMap` is
modelled as an association list with pairwise-distinct keys; its iteration
order is arbitrary, which the determinism theorem below quantifies over. -/
abbrev VFS := List (TPath × Option FileEntry)

/-- Lookup of the first binding of a key. -/
def vfsFind : VFS → TPath → Option (Option FileEntry)
  | [], _ => none
  | (q, v) :: rest, p => if q = p then some v else vfsFind rest p

/-- `HashMap::insert`: bind a key, dropping any previous binding. -/
def vfsInsert (vfs : VFS) (p : TPath) (v : Option FileEntry) : VFS :=
  (p, v) :: vfs.filter (fun e => decide (e.1 ≠ p))

/-- Keys are pairwise distinct (always true of a `HashMap`). -/
def keysNodup (vfs : VFS) : Prop := (vfs.map Prod.fst).Nodup

/-- `LayerMerger::apply_opaque_whiteout` (layer.rs lines 285-292): retain the
entries that are not strictly under the directory. -/
def apply_opaque_whiteout (vfs : VFS) (dir : TPath) : VFS :=
  vfs.filter (fun e => !(tpStartsWith e.1 dir) || e.1 == dir)

/-- The per-entry body of the loop of `LayerMerger::process_layer_tar`
(layer.rs lines 216-279), in source order: the unsafe-path guard (a substring
test for ".."), the storage decision, the whiteout classification on the file
name, and finally insertion into the virtual filesystem. -/
def process_entry (tar_path : String) (vfs : VFS) (e : TarEntry) : VFS :=
  if containsDotDot e.path then vfs
  else
    match fileName e.path with
    | some filename =>
      match stripWh filename with
      | some original_name =>
        if filename = opqName then
          apply_opaque_whiteout vfs (tparent e.path)
        else
          vfsInsert vfs ⟨(tparent e.path).abs, (tparent e.path).comps ++ [original_name]⟩ none
      | none => vfsInsert vfs e.path (some ⟨e.header, mkFileData tar_path e.header e.data⟩)
    | none => vfsInsert vfs e.path (some ⟨e.header, mkFileData tar_path e.header e.data⟩)

/-- `LayerMerger::process_layer_tar`: fold the entries of one layer tar, in
stream order, over the virtual filesystem. -/
def process_layer_tar (tar_path : String) (vfs : VFS) (entries : List TarEntry) : VFS :=
  entries.foldl (process_entry tar_path) vfs

/-- The replay loop of `LayerMerger::merge_layers` (layer.rs lines 175-187):
each layer tar of the selected slice, oldest first, starting from the empty
virtual filesystem. -/
def replayLayers (layers : List (String × List TarEntry)) : VFS :=
  layers.foldl (fun vfs l => process_layer_tar l.1 vfs l.2) []

/-- Strict lexicographic comparison of character lists by code point,
mirroring the byte-wise `Ord` of Rust strings (identical on ASCII). -/
def charListLt : List Char → List Char → Bool
  | [], [] => false
  | [], _ :: _ => true
  | _ :: _, [] => false
  | a :: as, b :: bs =>
    Char.toNat a < Char.toNat b ||
      (Char.toNat a = Char.toNat b && charListLt as bs)

/-- Strict order on component names. -/
def strLtB (a b : String) : Bool := charListLt a.data b.data

/-- Total order used by `valid_files.sort_by_key(|(path, _)| *path)`
(layer.rs line 308): lexicographic comparison of path component lists,
mirroring `Ord` on `PathBuf`. -/
def strListLe : List String → List String → Bool
  | [], _ => true
  | _ :: _, [] => false
  | a :: as, b :: bs =>
    if strLtB a b then true else if strLtB b a then false else strListLe as bs

/-- Path order: lexicographic on the component lists (root first). -/
def tpLe (p q : TPath) : Prop := strListLe p.compList q.compList = true

instance : DecidableRel tpLe := fun p q =>
  inferInstanceAs (Decidable (strListLe p.compList q.compList = true))

/-- The sort key order on collected (path, entry) pairs. -/
def pairLe (a b : TPath × FileEntry) : Prop := tpLe a.1 b.1

instance : DecidableRel pairLe := fun a b => inferInstanceAs (Decidable (tpLe a.1 b.1))

/-- The non-deleted entries of the virtual filesystem (layer.rs lines
300-305). -/
def presentEntries (vfs : VFS) : List (TPath × FileEntry) :=
  vfs.filterMap (fun e => e.2.map (fun fe => (e.1, fe)))

/-- Emission of one collected entry (layer.rs lines 319-342): the retained
header with the size updated — actual bytes for in-memory bodies, but a
zero-length placeholder for `OnDisk` references ("Large file streaming not
fully implemented"). -/
def emit_entry (p : TPath) (fe : FileEntry) : TarEntry :=
  match fe.data with
  | FileData.InMemory d => ⟨p, fe.header.withSize d.length, d⟩
  | FileData.OnDisk _ _ _ => ⟨p, fe.header.withSize 0, []⟩

/-- The emission loop of `create_merged_tar_from_vfs` (layer.rs lines
312-343): entries whose rendered path is longer than 255 are skipped with a
warning; `header.set_path` (tar-rs) rejects absolute paths, and that error
propagates through `?`. -/
def emit_all : List (TPath × FileEntry) → Except String (List TarEntry)
  | [] => Except.ok []
  | pe :: rest =>
    if (pathDisplay pe.1).length > 255 then emit_all rest
    else if pe.1.abs then Except.error "paths in archives must be relative"
    else
      match emit_all rest with
      | Except.error e => Except.error e
      | Except.ok out => Except.ok (emit_entry pe.1 pe.2 :: out)

/-- `LayerMerger::create_merged_tar_from_vfs` (layer.rs lines 295-348):
collect the non-deleted entries, sort by path, emit. -/
def create_merged_tar_from_vfs (vfs : VFS) : Except String (List TarEntry) :=
  emit_all (List.insertionSort pairLe (presentEntries vfs))

/-- `SquashError` (error.rs).  The payloads of `IoError` and `JsonError` are
modelled as their message strings. -/
inductive SquashError where
  | IoError : String → SquashError
  | JsonError : String → SquashError
  | DockerError : String → SquashError
  | InvalidInput : String → SquashError
  | LayerNotFound : String → SquashError
deriving DecidableEq

/-- `LayerInfo` (layer.rs lines 11-19). -/
structure LayerInfo where
  digest : String
  size : Nat
  tar_path : String
deriving DecidableEq

/-- Validation and slice selection of `LayerMerger::merge_latest_layers`
(layer.rs lines 95-118); the result is the slice of layers handed to
`merge_layers`, namely `layers[layers.len() - count..]`. -/
def merge_latest_layers (layers : List LayerInfo) (count : Nat) :
    Except SquashError (List LayerInfo) :=
  if count = 0 then
    Except.error (SquashError.InvalidInput "Cannot merge 0 layers")
  else if layers.length < count then
    Except.error (SquashError.InvalidInput
      ("Cannot merge " ++ toString count ++ " layers, only " ++
        toString layers.length ++ " layers available"))
  else
    Except.ok (layers.drop (layers.length - count))

/-- Rust `str::starts_with` on the character lists (byte-wise for ASCII),
written so that it evaluates by `decide`. -/
def strIsPrefixOf (a b : String) : Bool := a.data.isPrefixOf b.data

/-- Validation and slice selection of `LayerMerger::merge_from_layer_id`
(layer.rs lines 121-158): length check, then the earliest layer whose digest
starts with the given prefix; the slice handed to `merge_layers` is
`layers[start_index..]`. -/
def merge_from_layer_id (layers : List LayerInfo) (layer_id : String) :
    Except SquashError (List LayerInfo) :=
  if layer_id.length < 8 then
    Except.error (SquashError.InvalidInput
      ("Layer ID must be at least 8 characters long, got: " ++
        toString layer_id.length))
  else
    match layers.findIdx? (fun l => strIsPrefixOf layer_id l.digest) with
    | none => Except.error (SquashError.LayerNotFound layer_id)
    | some start_index => Except.ok (layers.drop start_index)

/-- The tail of `LayerMerger::merge_layers` (layer.rs lines 189-208), after
the replay: create the merged tar file, write it, compute its digest, read
its size.  Each fallible I/O step is a parameter; the second component of the
result records whether the merged tar file exists in the working directory
when the function returns.  Control flow from the source: a failure of
`create_merged_tar_from_vfs` propagates through `?` with no cleanup, while a
failure of `calculate_layer_digest` runs the `inspect_err` handler that
removes the file (lines 195-198). -/
def merge_layers_finish (create_res : Except String Unit)
    (write_res : Except String Unit) (digest_res : Except String String)
    (meta_res : Except String Nat) (merged_path : String) :
    Except String LayerInfo × Bool :=
  match create_res with
  | Except.error e => (Except.error e, false)
  | Except.ok _ =>
    match write_res with
    | Except.error e => (Except.error e, true)
    | Except.ok _ =>
      match digest_res with
      | Except.error e => (Except.error e, false)
      | Except.ok d =>
        match meta_res with
        | Except.error e => (Except.error e, true)
        | Except.ok sz => (Except.ok ⟨d, sz, merged_path⟩, true)

/-- `HistoryEntry` (image.rs lines 55-60). -/
structure HistoryEntry where
  created : String
  created_by : String
  empty_layer : Option Bool
deriving DecidableEq

/-- Count of history entries with `empty_layer != Some(true)` — the
non-empty-layer entries (image.rs lines 193-195). -/
def nonEmptyCount (h : List HistoryEntry) : Nat :=
  h.countP (fun e => decide (e.empty_layer ≠ some true))

/-- The backwards history scan of `DockerImage::squash_layers` (image.rs
lines 272-291), iterating over the reversed history with the running
`non_empty_count`; returns `history_entries_to_remove`. -/
def removeLoop (k : Nat) : List HistoryEntry → Nat → Nat
  | [], _ => 0
  | e :: rest, non_empty_count =>
    if e.empty_layer ≠ some true then
      if non_empty_count + 1 ≤ k then 1 + removeLoop k rest (non_empty_count + 1)
      else 0
    else
      if non_empty_count < k then 1 + removeLoop k rest non_empty_count
      else removeLoop k rest non_empty_count

/-- `history_entries_to_remove` computed by the loop of image.rs lines
276-291. -/
def history_entries_to_remove (history : List HistoryEntry) (k : Nat) : Nat :=
  removeLoop k history.reverse 0

/-- The manifest / config state that `squash_layers` rewrites. -/
structure SquashState where
  manifest_layers : List String
  diff_ids : List String
  history : List HistoryEntry
deriving DecidableEq

/-- The state rewrite of `DockerImage::squash_layers` after a successful
merge of the last `k` layers (image.rs lines 250-303): truncate
`manifest.layers` to `len - k` entries and push `"merged_layer.tar"`;
truncate `rootfs.diff_ids` to the same length and push the merged digest;
truncate `history` by `history_entries_to_remove` entries and push the new
entry with `created_by = "squash: merged k layers"` and
`empty_layer = Some(false)`. -/
def squash_layers_update (st : SquashState) (k : Nat) (merged_digest now : String) :
    SquashState :=
  let remaining := st.manifest_layers.length - k
  let t := history_entries_to_remove st.history k
  ⟨st.manifest_layers.take remaining ++ ["merged_layer.tar"],
   st.diff_ids.take remaining ++ [merged_digest],
   st.history.take (st.history.length - t) ++
     [⟨now, "squash: merged " ++ toString k ++ " layers", some false⟩]⟩

/-- The staging state of `TarBuilder` (tar.rs lines 75-107): `add_file`
writes the named file into the staging directory, overwriting a previous file
of the same name (`fs::write`). -/
def stage_files (ops : List (String × List Nat)) : List (String × List Nat) :=
  ops.foldl (fun acc op => (op.1, op.2) :: acc.filter (fun e => decide (e.1 ≠ op.1))) []

/-- `TarBuilder::build` (tar.rs lines 110-119): `append_dir_all` walks the
staging directory in `fs::read_dir` traversal order and appends every file in
the order encountered; no sorting of any kind is applied.  `dir_listing` is
that traversal — the operating system guarantees nothing about its order, so
it is a parameter: any permutation of the staged files is a possible run. -/
def tar_builder_build (dir_listing : List (String × List Nat)) :
    List (String × List Nat) :=
  dir_listing

/-! Concrete inputs used by the evaluations and witnesses below. -/

/-- A regular-file header of the given size (mode 0644). -/
def hdrFile (sz : Nat) : Header := ⟨0, 420, 0, 0, 0, none, sz⟩

/-- A directory header (mode 0755). -/
def hdrDir : Header := ⟨5, 493, 0, 0, 0, none, 0⟩

/-- A tar entry one byte larger than `MAX_MEMORY_FILE_SIZE`. -/
def bigEntry : TarEntry :=
  ⟨⟨false, ["big"]⟩, hdrFile 1048577, List.replicate 1048577 7⟩

/-- Layer 1 of the opaque-whiteout scenario: `dir/`, `dir/a`, `dir/b`,
`other`. -/
def c3_layer1 : List TarEntry :=
  [⟨⟨false, ["dir"]⟩, hdrDir, []⟩,
   ⟨⟨false, ["dir", "a"]⟩, hdrFile 1, [49]⟩,
   ⟨⟨false, ["dir", "b"]⟩, hdrFile 1, [50]⟩,
   ⟨⟨false, ["other"]⟩, hdrFile 1, [51]⟩]

/-- Layer 2 of the opaque-whiteout scenario: the marker
`dir/.wh..wh..opq`. -/
def c3_layer2 : List TarEntry :=
  [⟨⟨false, ["dir", ".wh..wh..opq"]⟩, hdrFile 0, []⟩]

/-- A whiteout entry `dir/.wh.x`. -/
def c4_whiteout : TarEntry := ⟨⟨false, ["dir", ".wh.x"]⟩, hdrFile 0, []⟩

/-- A regular entry reintroducing `dir/x`. -/
def c4_reintro : TarEntry := ⟨⟨false, ["dir", "x"]⟩, hdrFile 1, [55]⟩

/-- A virtual filesystem with a tombstone at `dir/x` and a present `y`. -/
def c4_vfs : VFS :=
  [(⟨false, ["dir", "x"]⟩, none),
   (⟨false, ["y"]⟩, some ⟨hdrFile 1, FileData.InMemory [56]⟩)]

/-- A tar entry with an absolute path `/evil`. -/
def absEntry : TarEntry := ⟨⟨true, ["evil"]⟩, hdrFile 1, [57]⟩

/-- A tar entry with the traversal path `../evil`. -/
def dotdotEntry : TarEntry := ⟨⟨false, ["..", "evil"]⟩, hdrFile 1, [59]⟩

/-- A single layer containing a safe entry and the `../evil` entry. -/
def c5_layers : List (String × List TarEntry) :=
  [("l1.tar", [⟨⟨false, ["ok"]⟩, hdrFile 1, [58]⟩, dotdotEntry])]

/-- Present file entries for the determinism witness. -/
def c6_fe1 : FileEntry := ⟨hdrFile 1, FileData.InMemory [49]⟩

/-- Second present file entry for the determinism witness. -/
def c6_fe2 : FileEntry := ⟨hdrFile 1, FileData.InMemory [50]⟩

/-- A virtual filesystem in one iteration order. -/
def c6_v1 : VFS :=
  [(⟨false, ["a"]⟩, some c6_fe1), (⟨false, ["b"]⟩, some c6_fe2),
   (⟨false, ["c"]⟩, none)]

/-- The same virtual filesystem in another iteration order. -/
def c6_v2 : VFS :=
  [(⟨false, ["b"]⟩, some c6_fe2), (⟨false, ["a"]⟩, some c6_fe1),
   (⟨false, ["c"]⟩, none)]

/-- A three-entry history whose middle entry is an empty layer marker with
`empty_layer` absent (counts as non-empty, as in image.rs). -/
def c2_history : List HistoryEntry :=
  [⟨"t1", "cmd1", some false⟩, ⟨"t2", "cmd2", some true⟩,
   ⟨"t3", "cmd3", none⟩, ⟨"t4", "cmd4", some false⟩]

/-- A pre-squash state with three layers: `manifest.layers`, `diff_ids` and
the non-empty history entries all have cardinality 3. -/
def c2_state : SquashState :=
  ⟨["a.tar", "b.tar", "c.tar"], ["sha256:a", "sha256:b", "sha256:c"], c2_history⟩

/-- Two layers for the validation witness. -/
def c9_layers : List LayerInfo :=
  [⟨"sha256:aaaabbbb1111", 10, "p1"⟩, ⟨"sha256:ccccdddd2222", 20, "p2"⟩]

/-- A directory listing of the staged files `b`, `a` in the order a
filesystem may legally enumerate them. -/
def c7_listing : List (String × List Nat) := [("b", [1]), ("a", [2])]

/-- One layer containing a regular entry `a` and a whiteout `.wh.b`. -/
def c10_layers : List (String × List TarEntry) :=
  [("l1.tar", [⟨⟨false, ["a"]⟩, hdrFile 1, [49]⟩,
               ⟨⟨false, [".wh.b"]⟩, hdrFile 0, []⟩])]

/-- The property every present key of the virtual filesystem enjoys: its
rendered path has no ".." substring (it passed the unsafe-path guard) and its
file name does not carry the `.wh.` whiteout marker (whiteouts are consumed,
never stored as present entries). -/
def goodKey (p : TPath) : Prop :=
  containsDotDot p = false ∧ (fileName p).bind stripWh = none

/-- The basename of the path starts with `.wh.`. -/
def basenameIsWh (p : TPath) : Bool :=
  match fileName p with
  | some s => (stripWh s).isSome
  | none => false

/-- Names compared for the sorted-by-name property of the tar builder. -/
abbrev nameLe (a b : String) : Prop := strLtB b a = false

/-- A whiteout entry whose stripped target name itself begins with a dot:
`dir/.wh..secret`. -/
def c4_bad_whiteout : TarEntry := ⟨⟨false, ["dir", ".wh..secret"]⟩, hdrFile 0, []⟩

/-- A virtual filesystem holding a present `dir/.secret`. -/
def c4_prior_vfs : VFS :=
  [(⟨false, ["dir", ".secret"]⟩, some ⟨hdrFile 1, FileData.InMemory [1]⟩)]

/-! Properties of the path order used by the sort. -/

theorem charListLt_irrefl (a : List Char) : charListLt a a = false := by
  induction a with
  | nil => rfl
  | cons x xs ih => simp [charListLt, ih]

theorem charListLt_trans (a : List Char) :
    ∀ b c, charListLt a b = true → charListLt b c = true → charListLt a c = true := by
  induction a with
  | nil =>
    intro b c h h'
    cases b with
    | nil => simp [charListLt] at h
    | cons y ys =>
      cases c with
      | nil => simp [charListLt] at h'
      | cons z zs => simp [charListLt]
  | cons x xs ih =>
    intro b c h h'
    cases b with
    | nil => simp [charListLt] at h
    | cons y ys =>
      cases c with
      | nil => simp [charListLt] at h'
      | cons z zs =>
        simp only [charListLt, Bool.or_eq_true, Bool.and_eq_true,
          decide_eq_true_eq] at h h' ⊢
        rcases h with hxy | ⟨hxy, hrec⟩ <;> rcases h' with hyz | ⟨hyz, hrec'⟩
        · exact Or.inl (Nat.lt_trans hxy hyz)
        · exact Or.inl (by omega)
        · exact Or.inl (by omega)
        · exact Or.inr ⟨by omega, ih ys zs hrec hrec'⟩

theorem charListLt_conn (a : List Char) :
    ∀ b, charListLt a b = false → charListLt b a = false → a = b := by
  induction a with
  | nil =>
    intro b h _
    cases b with
    | nil => rfl
    | cons y ys => simp [charListLt] at h
  | cons x xs ih =>
    intro b h h'
    cases b with
    | nil => simp [charListLt] at h'
    | cons y ys =>
      rcases Nat.lt_trichotomy (Char.toNat x) (Char.toNat y) with hlt | heq | hgt
      · simp [charListLt, hlt] at h
      · have hx : x = y := Char.ext (UInt32.toNat.inj heq)
        subst hx
        have h1 : charListLt xs ys = false := by
          simpa [charListLt] using h
        have h2 : charListLt ys xs = false := by
          simpa [charListLt] using h'
        rw [ih ys h1 h2]
      · simp [charListLt, hgt] at h'

theorem charListLt_asymm (a b : List Char) (h : charListLt a b = true) :
    charListLt b a = false := by
  by_contra h'
  have hba : charListLt b a = true := by
    revert h'; cases charListLt b a <;> simp
  have := charListLt_trans a b a h hba
  rw [charListLt_irrefl] at this
  exact absurd this (by simp)

theorem strLtB_trans {a b c : String} (h : strLtB a b = true)
    (h' : strLtB b c = true) : strLtB a c = true :=
  charListLt_trans a.data b.data c.data h h'

theorem strLtB_asymm {a b : String} (h : strLtB a b = true) :
    strLtB b a = false :=
  charListLt_asymm a.data b.data h

theorem strLtB_conn {a b : String} (h : strLtB a b = false)
    (h' : strLtB b a = false) : a = b := by
  have hd := charListLt_conn a.data b.data h h'
  cases a with
  | mk da =>
    cases b with
    | mk db => simp only [String.data] at hd; rw [hd]

theorem strListLe_total (a : List String) :
    ∀ b, strListLe a b = true ∨ strListLe b a = true := by
  induction a with
  | nil => intro b; exact Or.inl rfl
  | cons x xs ih =>
    intro b
    cases b with
    | nil => exact Or.inr rfl
    | cons y ys =>
      cases hxy : strLtB x y with
      | true => exact Or.inl (by simp [strListLe, hxy])
      | false =>
        cases hyx : strLtB y x with
        | true => exact Or.inr (by simp [strListLe, hyx])
        | false =>
          have hx : x = y := strLtB_conn hxy hyx
          subst hx
          rcases ih ys with h | h
          · exact Or.inl (by simp [strListLe, hxy]; exact h)
          · exact Or.inr (by simp [strListLe, hxy]; exact h)

theorem strListLe_trans (a : List String) :
    ∀ b c, strListLe a b = true → strListLe b c = true → strListLe a c = true := by
  induction a with
  | nil => intro b c _ _; rfl
  | cons x xs ih =>
    intro b c h h'
    cases b with
    | nil => simp [strListLe] at h
    | cons y ys =>
      cases c with
      | nil => simp [strListLe] at h'
      | cons z zs =>
        cases hxy : strLtB x y with
        | true =>
          cases hyz : strLtB y z with
          | true => simp [strListLe, strLtB_trans hxy hyz]
          | false =>
            cases hzy : strLtB z y with
            | true => simp [strListLe, hyz, hzy] at h'
            | false =>
              have hyzeq : y = z := strLtB_conn hyz hzy
              subst hyzeq
              simp [strListLe, hxy]
        | false =>
          cases hyx : strLtB y x with
          | true => simp [strListLe, hxy, hyx] at h
          | false =>
            have hxyeq : x = y := strLtB_conn hxy hyx
            subst hxyeq
            have hrec : strListLe xs ys = true := by
              simpa [strListLe, hxy, hyx] using h
            cases hxz : strLtB x z with
            | true => simp [strListLe, hxz]
            | false =>
              cases hzx : strLtB z x with
              | true => simp [strListLe, hxz, hzx] at h'
              | false =>
                have hrec' : strListLe ys zs = true := by
                  simpa [strListLe, hxz, hzx] using h'
                simp [strListLe, hxz, hzx]
                exact ih ys zs hrec hrec'

theorem strListLe_antisymm (a : List String) :
    ∀ b, strListLe a b = true → strListLe b a = true → a = b := by
  induction a with
  | nil =>
    intro b _ h'
    cases b with
    | nil => rfl
    | cons y ys => simp [strListLe] at h'
  | cons x xs ih =>
    intro b h h'
    cases b with
    | nil => simp [strListLe] at h
    | cons y ys =>
      cases hxy : strLtB x y with
      | true => simp [strListLe, hxy, strLtB_asymm hxy] at h'
      | false =>
        cases hyx : strLtB y x with
        | true => simp [strListLe, hxy, hyx] at h
        | false =>
          have hxyeq : x = y := strLtB_conn hxy hyx
          subst hxyeq
          have h1 : strListLe xs ys = true := by simpa [strListLe, hxy] using h
          have h2 : strListLe ys xs = true := by simpa [strListLe, hxy] using h'
          rw [ih ys h1 h2]

theorem tpLe_total (p q : TPath) : tpLe p q ∨ tpLe q p :=
  strListLe_total p.compList q.compList

theorem tpLe_trans {p q r : TPath} (h : tpLe p q) (h' : tpLe q r) : tpLe p r :=
  strListLe_trans p.compList q.compList r.compList h h'

theorem compList_inj {p q : TPath} (hp : pathValid p) (hq : pathValid q)
    (h : p.compList = q.compList) : p = q := by
  cases p with
  | mk pa pc =>
    cases q with
    | mk qa qc =>
      unfold pathValid at hp hq
      cases pa <;> cases qa
      · simp only [TPath.compList] at h
        simp at h
        rw [h]
      · simp only [TPath.compList] at h
        simp at h
        rw [h] at hp
        simp at hp
      · simp only [TPath.compList] at h
        simp at h
        rw [← h] at hq
        simp at hq
      · simp only [TPath.compList] at h
        simp at h
        rw [h]

theorem tpLe_antisymm {p q : TPath} (hp : pathValid p) (hq : pathValid q)
    (h : tpLe p q) (h' : tpLe q p) : p = q :=
  compList_inj hp hq (strListLe_antisymm p.compList q.compList h h')

theorem pairLe_total (a b : TPath × FileEntry) : pairLe a b ∨ pairLe b a :=
  tpLe_total a.1 b.1

theorem pairLe_trans {a b c : TPath × FileEntry} (h : pairLe a b)
    (h' : pairLe b c) : pairLe a c :=
  tpLe_trans h h'

/-- Two lists of keyed entries that are permutations of each other, both
sorted by key, with pairwise-distinct valid keys, are equal: the result of
the sort does not depend on the iteration order of the `HashMap`. -/
theorem sorted_nodupKeys_perm_eq :
    ∀ (l₁ l₂ : List (TPath × FileEntry)), l₁.Perm l₂ →
      l₁.Sorted pairLe → l₂.Sorted pairLe →
      (l₁.map Prod.fst).Nodup → (∀ x ∈ l₁, pathValid x.1) → l₁ = l₂ := by
  intro l₁
  induction l₁ with
  | nil =>
    intro l₂ hp _ _ _ _
    exact (hp.symm.eq_nil).symm
  | cons a t₁ ih =>
    intro l₂ hp hs₁ hs₂ hnd hv
    cases l₂ with
    | nil => exact absurd hp.eq_nil (by simp)
    | cons b t₂ =>
      by_cases hab : a = b
      · subst hab
        have ht : t₁.Perm t₂ := hp.cons_inv
        have htl : t₁ = t₂ :=
          ih t₂ ht hs₁.of_cons hs₂.of_cons (List.Nodup.of_cons hnd)
            (fun x hx => hv x (List.mem_cons_of_mem _ hx))
        rw [htl]
      · have hbmem : b ∈ a :: t₁ := hp.mem_iff.mpr (List.mem_cons_self _ _)
        have hamem : a ∈ b :: t₂ := hp.mem_iff.mp (List.mem_cons_self _ _)
        have hbt : b ∈ t₁ := by
          rcases List.mem_cons.mp hbmem with h | h
          · exact absurd h.symm hab
          · exact h
        have hat : a ∈ t₂ := by
          rcases List.mem_cons.mp hamem with h | h
          · exact absurd h hab
          · exact h
        have h1 : pairLe a b := List.rel_of_sorted_cons hs₁ b hbt
        have h2 : pairLe b a := List.rel_of_sorted_cons hs₂ a hat
        have hkey : a.1 = b.1 :=
          tpLe_antisymm (hv a (List.mem_cons_self _ _)) (hv b hbmem) h1 h2
        exact absurd
          (List.inj_on_of_nodup_map hnd (List.mem_cons_self _ _) hbmem hkey) hab

/-! Lemmas about the virtual filesystem operations. -/

theorem vfsFind_insert_self (vfs : VFS) (p : TPath) (v : Option FileEntry) :
    vfsFind (vfsInsert vfs p v) p = some v := by
  simp [vfsInsert, vfsFind]

theorem mem_vfsInsert {vfs : VFS} {p : TPath} {v : Option FileEntry}
    {x : TPath × Option FileEntry} (hx : x ∈ vfsInsert vfs p v) :
    x = (p, v) ∨ x ∈ vfs := by
  rcases List.mem_cons.mp hx with h | h
  · exact Or.inl h
  · exact Or.inr (List.mem_filter.mp h).1

theorem mem_apply_opaque_whiteout {vfs : VFS} {dir : TPath}
    {x : TPath × Option FileEntry} (hx : x ∈ apply_opaque_whiteout vfs dir) :
    x ∈ vfs :=
  (List.mem_filter.mp hx).1

theorem vfsFind_mem {vfs : VFS} {p : TPath} {v : Option FileEntry}
    (h : vfsFind vfs p = some v) : (p, v) ∈ vfs := by
  induction vfs with
  | nil => simp [vfsFind] at h
  | cons e rest ih =>
    obtain ⟨q, w⟩ := e
    by_cases hq : q = p
    · subst hq
      rw [vfsFind, if_pos rfl] at h
      exact List.mem_cons.mpr (Or.inl (by rw [Option.some_inj.mp h]))
    · rw [vfsFind, if_neg hq] at h
      exact List.mem_cons.mpr (Or.inr (ih h))

/-- Every present entry of the virtual filesystem after processing one layer
entry has a good key, provided all present entries before did. -/
theorem process_entry_present (t : String) (vfs : VFS) (e : TarEntry)
    (H : ∀ p fe, (p, some fe) ∈ vfs → goodKey p) :
    ∀ p fe, (p, some fe) ∈ process_entry t vfs e → goodKey p := by
  intro p fe hmem
  unfold process_entry at hmem
  split at hmem
  next => exact H p fe hmem
  next hdd =>
    have hdd' : containsDotDot e.path = false := Bool.eq_false_iff.mpr hdd
    split at hmem
    next filename hfn =>
      split at hmem
      next original_name hsw =>
        split at hmem
        next => exact H p fe (mem_apply_opaque_whiteout hmem)
        next =>
          rcases mem_vfsInsert hmem with h | h
          · exact absurd (congrArg Prod.snd h) (by simp)
          · exact H p fe h
      next hsw =>
        rcases mem_vfsInsert hmem with h | h
        · have hp : p = e.path := congrArg Prod.fst h
          subst hp
          exact ⟨hdd', by rw [hfn]; simpa using hsw⟩
        · exact H p fe h
    next hfn =>
      rcases mem_vfsInsert hmem with h | h
      · have hp : p = e.path := congrArg Prod.fst h
        subst hp
        exact ⟨hdd', by rw [hfn]; rfl⟩
      · exact H p fe h

/-- The good-key invariant is preserved by replaying a whole layer tar. -/
theorem process_layer_tar_present (t : String) (entries : List TarEntry) :
    ∀ vfs : VFS, (∀ p fe, (p, some fe) ∈ vfs → goodKey p) →
      ∀ p fe, (p, some fe) ∈ process_layer_tar t vfs entries → goodKey p := by
  induction entries with
  | nil => intro vfs H p fe hm; exact H p fe hm
  | cons e rest ih =>
    intro vfs H p fe hm
    exact ih (process_entry t vfs e) (process_entry_present t vfs e H) p fe hm

/-- Every present entry of the replayed virtual filesystem has a good key. -/
theorem replayLayers_present (layers : List (String × List TarEntry)) :
    ∀ p fe, (p, some fe) ∈ replayLayers layers → goodKey p := by
  have main : ∀ (ls : List (String × List TarEntry)) (vfs : VFS),
      (∀ p fe, (p, some fe) ∈ vfs → goodKey p) →
      ∀ p fe,
        (p, some fe) ∈ ls.foldl (fun v l => process_layer_tar l.1 v l.2) vfs →
        goodKey p := by
    intro ls
    induction ls with
    | nil => intro vfs H p fe hm; exact H p fe hm
    | cons l rest ih =>
      intro vfs H p fe hm
      exact ih (process_layer_tar l.1 vfs l.2)
        (process_layer_tar_present l.1 l.2 vfs H) p fe hm
  intro p fe hm
  exact main layers [] (by intro p fe hm; simp at hm) p fe hm

/-! Lemmas about the emission of the merged tar. -/

theorem emit_entry_path (p : TPath) (fe : FileEntry) :
    (emit_entry p fe).path = p := by
  cases hd : fe.data <;> simp [emit_entry, hd]

theorem emit_all_ok_paths :
    ∀ {l : List (TPath × FileEntry)} {out : List TarEntry},
      emit_all l = Except.ok out →
      List.Sublist (out.map TarEntry.path) (l.map Prod.fst) := by
  intro l
  induction l with
  | nil =>
    intro out h
    obtain rfl : ([] : List TarEntry) = out := by
      simpa [emit_all] using h
    simp
  | cons pe rest ih =>
    intro out h
    unfold emit_all at h
    split at h
    · exact List.Sublist.cons pe.1 (ih h)
    · split at h
      · exact absurd h (by simp)
      · split at h
        · exact absurd h (by simp)
        next hrest =>
          obtain rfl : emit_entry pe.1 pe.2 :: _ = out := by
            simpa using h
          simpa [emit_entry_path] using List.Sublist.cons₂ pe.1 (ih hrest)

theorem mem_presentEntries {v : VFS} {q : TPath × FileEntry}
    (h : q ∈ presentEntries v) : (q.1, some q.2) ∈ v := by
  rcases List.mem_filterMap.mp h with ⟨⟨q', v?⟩, hmem, hmap⟩
  cases v? with
  | none => simp at hmap
  | some fe' =>
    simp only [Option.map_some] at hmap
    have hq : (q', fe') = q := Option.some_inj.mp hmap
    subst hq
    exact hmem

theorem presentEntries_keys_sublist (v : VFS) :
    List.Sublist ((presentEntries v).map Prod.fst) (v.map Prod.fst) := by
  induction v with
  | nil => simp [presentEntries]
  | cons e rest ih =>
    cases he : e.2 with
    | none =>
      have : presentEntries (e :: rest) = presentEntries rest := by
        simp [presentEntries, List.filterMap_cons, he]
      rw [this]
      exact List.Sublist.cons e.1 ih
    | some fe =>
      have : presentEntries (e :: rest) = (e.1, fe) :: presentEntries rest := by
        simp [presentEntries, List.filterMap_cons, he]
      rw [this]
      exact List.Sublist.cons₂ e.1 ih

/-- Any path of a successfully emitted merged tar is a present key of the
virtual filesystem it was produced from. -/
theorem create_merged_mem {vfs : VFS} {out : List TarEntry}
    (h : create_merged_tar_from_vfs vfs = Except.ok out) :
    ∀ p ∈ out.map TarEntry.path, ∃ fe, (p, some fe) ∈ vfs := by
  intro p hp
  unfold create_merged_tar_from_vfs at h
  have hp' : p ∈ (List.insertionSort pairLe (presentEntries vfs)).map Prod.fst :=
    (emit_all_ok_paths h).subset hp
  have hp2 : p ∈ (presentEntries vfs).map Prod.fst :=
    (((List.perm_insertionSort pairLe (presentEntries vfs)).map Prod.fst).mem_iff).mp hp'
  rcases List.mem_map.mp hp2 with ⟨q, hqmem, hq⟩
  refine ⟨q.2, ?_⟩
  have := mem_presentEntries hqmem
  rw [hq] at this
  exact this

/-! Shape lemmas for the three live branches of `process_entry`. -/

theorem process_entry_of_dotdot (t : String) (vfs : VFS) (e : TarEntry)
    (h : containsDotDot e.path = true) : process_entry t vfs e = vfs := by
  unfold process_entry
  rw [h]
  simp

theorem process_entry_of_whiteout (t : String) (vfs : VFS) (e : TarEntry)
    (filename original_name : String)
    (hguard : containsDotDot e.path = false)
    (hname : fileName e.path = some filename)
    (hstrip : stripWh filename = some original_name)
    (hnotopq : filename ≠ opqName) :
    process_entry t vfs e =
      vfsInsert vfs
        ⟨(tparent e.path).abs, (tparent e.path).comps ++ [original_name]⟩ none := by
  unfold process_entry
  rw [hguard, hname]
  simp [hstrip, hnotopq]

theorem process_entry_of_regular (t : String) (vfs : VFS) (e : TarEntry)
    (hguard : containsDotDot e.path = false)
    (hreg : (fileName e.path).bind stripWh = none) :
    process_entry t vfs e =
      vfsInsert vfs e.path (some ⟨e.header, mkFileData t e.header e.data⟩) := by
  unfold process_entry
  rw [hguard]
  cases hfn : fileName e.path with
  | none => simp
  | some filename =>
    have hsw : stripWh filename = none := by simpa [hfn] using hreg
    simp [hsw]

/-! The claims. -/

/-- C1.  The claim states that every entry surviving the merge keeps its
original bytes, including entries larger than `MAX_MEMORY_FILE_SIZE`.  The
code stores such entries as `OnDisk` references and
`create_merged_tar_from_vfs` emits them as zero-sized placeholder entries
(layer.rs lines 330-341, "Large file streaming not fully implemented"): a
single layer holding the 1048577-byte entry `big` is merged into a tar whose
only entry has size 0 and empty body, while the input body had 1048577
bytes.  Small entries are preserved; the large-entry clause of the claim is
contradicted by the code. -/
theorem c1_large_entry_zero_bytes :
    create_merged_tar_from_vfs (process_layer_tar "layer.tar" [] [bigEntry]) =
      Except.ok [⟨⟨false, ["big"]⟩, ⟨0, 420, 0, 0, 0, none, 0⟩, []⟩] ∧
    bigEntry.header.size = 1048577 ∧ bigEntry.data.length = 1048577 := by
  refine ⟨rfl, rfl, ?_⟩
  have h : bigEntry.data = List.replicate 1048577 7 := rfl
  rw [h, List.length_replicate]

/-- C3.  The claim states that a `.wh..wh..opq` entry removes every entry
strictly under its parent directory.  In the code the unsafe-path guard
(layer.rs line 222) tests for the substring ".." in the rendered path, and
the marker name `.wh..wh..opq` itself contains "..", so every opaque-whiteout
entry is skipped before the whiteout handling (lines 249-252) can run; that
branch is unreachable.  On the very scenario of the claim (layer 1 populates
`dir`, `dir/a`, `dir/b`, `other`; layer 2 holds `dir/.wh..wh..opq`) the
merged tar still contains `dir/a` and `dir/b`. -/
theorem c3_opaque_whiteout_not_applied :
    containsDotDot ⟨false, ["dir", ".wh..wh..opq"]⟩ = true ∧
    (create_merged_tar_from_vfs
        (replayLayers [("l1.tar", c3_layer1), ("l2.tar", c3_layer2)])).toOption.map
        (List.map TarEntry.path) =
      some [⟨false, ["dir"]⟩, ⟨false, ["dir", "a"]⟩, ⟨false, ["dir", "b"]⟩,
        ⟨false, ["other"]⟩] :=
  ⟨rfl, rfl⟩

/-- C4, counterexample.  The claim quantifies over every entry whose
basename starts with `.wh.` and is not the opaque marker.  For the whiteout
`dir/.wh..secret` (stripped target `.secret`) the rendered path contains
"..", so the unsafe-path guard skips the entry before the whiteout handling:
no tombstone is inserted and a previously present `dir/.secret` survives,
refuting the claim as stated. -/
theorem c4_counterexample :
    stripWh ".wh..secret" = some ".secret" ∧
    ".wh..secret" ≠ opqName ∧
    fileName c4_bad_whiteout.path = some ".wh..secret" ∧
    process_entry "l2.tar" c4_prior_vfs c4_bad_whiteout = c4_prior_vfs ∧
    vfsFind c4_prior_vfs ⟨false, ["dir", ".secret"]⟩ =
      some (some ⟨hdrFile 1, FileData.InMemory [1]⟩) := by
  refine ⟨rfl, by decide, rfl, rfl, rfl⟩

/-- C4, amended: restricted to whiteout entries that pass the unsafe-path
guard (rendered path free of the ".." substring), a tar entry whose basename
starts with `.wh.` and is not `.wh..wh..opq` inserts a `deleted` tombstone at
the parent directory joined with the stripped basename, overriding any
earlier binding; a later regular entry at that path overrides the deletion;
and a path still tombstoned at the end of the merge is absent from the
merged tar. -/
theorem c4_whiteout_tombstone
    (t : String) (vfs : VFS) (e : TarEntry)
    (hguard : containsDotDot e.path = false)
    (filename original_name : String)
    (hname : fileName e.path = some filename)
    (hstrip : stripWh filename = some original_name)
    (hnotopq : filename ≠ opqName)
    (e2 : TarEntry)
    (htarget : e2.path =
      ⟨(tparent e.path).abs, (tparent e.path).comps ++ [original_name]⟩)
    (hguard2 : containsDotDot e2.path = false)
    (hreg2 : (fileName e2.path).bind stripWh = none)
    (v' : VFS) (hnd : keysNodup v')
    (htomb : vfsFind v' e2.path = some none)
    (out : List TarEntry)
    (hout : create_merged_tar_from_vfs v' = Except.ok out) :
    vfsFind (process_entry t vfs e) e2.path = some none ∧
    vfsFind (process_entry t (process_entry t vfs e) e2) e2.path =
      some (some ⟨e2.header, mkFileData t e2.header e2.data⟩) ∧
    e2.path ∉ out.map TarEntry.path := by
  refine ⟨?_, ?_, ?_⟩
  · rw [process_entry_of_whiteout t vfs e filename original_name hguard hname
      hstrip hnotopq, htarget]
    exact vfsFind_insert_self _ _ _
  · rw [process_entry_of_regular t (process_entry t vfs e) e2 hguard2 hreg2]
    exact vfsFind_insert_self _ _ _
  · intro hpin
    rcases create_merged_mem hout e2.path hpin with ⟨fe, hfe⟩
    have hmem : (e2.path, none) ∈ v' := vfsFind_mem htomb
    have hnd' : (v'.map Prod.fst).Nodup := hnd
    have heq : (e2.path, (none : Option FileEntry)) = (e2.path, some fe) :=
      List.inj_on_of_nodup_map hnd' hmem hfe rfl
    exact absurd (congrArg Prod.snd heq) (by simp)

/-- C4, witness. -/
theorem c4_whiteout_tombstone_witness :
    vfsFind (process_entry "l2.tar" [] c4_whiteout) c4_reintro.path = some none ∧
    vfsFind (process_entry "l2.tar" (process_entry "l2.tar" [] c4_whiteout)
        c4_reintro) c4_reintro.path =
      some (some ⟨c4_reintro.header,
        mkFileData "l2.tar" c4_reintro.header c4_reintro.data⟩) ∧
    c4_reintro.path ∉
      ([⟨⟨false, ["y"]⟩, hdrFile 1, [56]⟩] : List TarEntry).map TarEntry.path :=
  c4_whiteout_tombstone "l2.tar" [] c4_whiteout rfl ".wh.x" "x" rfl rfl
    (by decide) c4_reintro rfl rfl rfl c4_vfs
    (by show (c4_vfs.map Prod.fst).Nodup; decide) rfl
    [⟨⟨false, ["y"]⟩, hdrFile 1, [56]⟩] rfl

/-- C5, counterexample.  The claim states that entries whose path is
absolute are dropped and never written to the virtual filesystem.  The guard
of `process_layer_tar` only tests for the substring ".." (layer.rs line
222); the absolute-path entry `/evil` passes it and is inserted into the
virtual filesystem as a present entry. -/
theorem c5_counterexample :
    absEntry.path.abs = true ∧
    containsDotDot absEntry.path = false ∧
    vfsFind (process_layer_tar "l1.tar" [] [absEntry]) absEntry.path =
      some (some ⟨absEntry.header, FileData.InMemory absEntry.data⟩) :=
  ⟨rfl, rfl, rfl⟩

/-- C5, amended: an entry whose rendered path contains the substring ".."
(in particular any path with a `..` segment) is dropped and never changes
the virtual filesystem, and every path of a successfully emitted merged tar
is free of that substring; absolute paths, however, are not rejected by the
guard. -/
theorem c5_unsafe_paths
    (t : String) (vfs : VFS) (e : TarEntry)
    (h : containsDotDot e.path = true)
    (layers : List (String × List TarEntry)) (out : List TarEntry)
    (hout : create_merged_tar_from_vfs (replayLayers layers) = Except.ok out) :
    process_entry t vfs e = vfs ∧
    ∀ p ∈ out.map TarEntry.path, containsDotDot p = false := by
  refine ⟨process_entry_of_dotdot t vfs e h, ?_⟩
  intro p hp
  rcases create_merged_mem hout p hp with ⟨fe, hfe⟩
  exact (replayLayers_present layers p fe hfe).1

/-- C5, witness. -/
theorem c5_unsafe_paths_witness :
    process_entry "l1.tar" [] dotdotEntry = [] ∧
    ∀ p ∈ ([⟨⟨false, ["ok"]⟩, hdrFile 1, [58]⟩] : List TarEntry).map
        TarEntry.path, containsDotDot p = false :=
  c5_unsafe_paths "l1.tar" [] dotdotEntry rfl c5_layers
    [⟨⟨false, ["ok"]⟩, hdrFile 1, [58]⟩] rfl

/-- C6.  For a fixed final virtual-filesystem state, the emitted merged tar
is the same whatever iteration order the `HashMap` hands to the collection
step (two runs over the same input layer tars replay to the same map, so
their merged tar bytes coincide), and its entries are sorted by path. -/
theorem c6_deterministic_sorted_emission (v1 v2 : VFS)
    (hnd : keysNodup v1) (hperm : v1.Perm v2)
    (hvalid : ∀ pr ∈ v1, pathValid pr.1) :
    create_merged_tar_from_vfs v1 = create_merged_tar_from_vfs v2 ∧
    ∀ out, create_merged_tar_from_vfs v1 = Except.ok out →
      (out.map TarEntry.path).Sorted tpLe := by
  haveI htot : IsTotal (TPath × FileEntry) pairLe := ⟨pairLe_total⟩
  haveI htra : IsTrans (TPath × FileEntry) pairLe :=
    ⟨fun _ _ _ => pairLe_trans⟩
  have hsort1 : (List.insertionSort pairLe (presentEntries v1)).Sorted pairLe :=
    List.sorted_insertionSort pairLe _
  have hsort2 : (List.insertionSort pairLe (presentEntries v2)).Sorted pairLe :=
    List.sorted_insertionSort pairLe _
  have hpE : (presentEntries v1).Perm (presentEntries v2) := hperm.filterMap _
  have hs1p : (List.insertionSort pairLe (presentEntries v1)).Perm
      (presentEntries v1) := List.perm_insertionSort pairLe _
  have hs2p : (List.insertionSort pairLe (presentEntries v2)).Perm
      (presentEntries v2) := List.perm_insertionSort pairLe _
  have hperm12 : (List.insertionSort pairLe (presentEntries v1)).Perm
      (List.insertionSort pairLe (presentEntries v2)) :=
    hs1p.trans (hpE.trans hs2p.symm)
  have hnd0 : (v1.map Prod.fst).Nodup := hnd
  have hkeys : ((presentEntries v1).map Prod.fst).Nodup :=
    (presentEntries_keys_sublist v1).nodup hnd0
  have hnd1 : ((List.insertionSort pairLe (presentEntries v1)).map
      Prod.fst).Nodup := ((hs1p.map Prod.fst).nodup_iff).mpr hkeys
  have hv1 : ∀ x ∈ List.insertionSort pairLe (presentEntries v1),
      pathValid x.1 := by
    intro x hx
    have hx' : x ∈ presentEntries v1 := hs1p.mem_iff.mp hx
    exact hvalid (x.1, some x.2) (mem_presentEntries hx')
  have hss : List.insertionSort pairLe (presentEntries v1) =
      List.insertionSort pairLe (presentEntries v2) :=
    sorted_nodupKeys_perm_eq _ _ hperm12 hsort1 hsort2 hnd1 hv1
  constructor
  · show emit_all (List.insertionSort pairLe (presentEntries v1)) =
      emit_all (List.insertionSort pairLe (presentEntries v2))
    rw [hss]
  · intro out hout
    have hout' : emit_all (List.insertionSort pairLe (presentEntries v1)) =
        Except.ok out := hout
    have hsub := emit_all_ok_paths hout'
    have hmap : ((List.insertionSort pairLe (presentEntries v1)).map
        Prod.fst).Sorted tpLe :=
      List.Pairwise.map Prod.fst (fun _ _ h => h) hsort1
    exact hmap.sublist hsub

/-- C6, witness. -/
theorem c6_deterministic_sorted_emission_witness :
    create_merged_tar_from_vfs c6_v1 = create_merged_tar_from_vfs c6_v2 ∧
    ∀ out, create_merged_tar_from_vfs c6_v1 = Except.ok out →
      (out.map TarEntry.path).Sorted tpLe :=
  c6_deterministic_sorted_emission c6_v1 c6_v2
    (by show (c6_v1.map Prod.fst).Nodup; decide)
    (List.Perm.swap _ _ _)
    (by show ∀ pr ∈ c6_v1, "/" ∉ pr.1.comps; decide)

/-- C10.  No entry of a successfully emitted merged tar has a basename that
starts with `.wh.`: whiteout markers are never inserted as present entries
during replay (they are consumed as tombstones, as opaque handling, or
skipped by the unsafe-path guard), and tombstones are filtered out at
emission. -/
theorem c10_no_whiteout_markers (layers : List (String × List TarEntry))
    (out : List TarEntry)
    (hout : create_merged_tar_from_vfs (replayLayers layers) = Except.ok out) :
    ∀ p ∈ out.map TarEntry.path, basenameIsWh p = false := by
  intro p hp
  rcases create_merged_mem hout p hp with ⟨fe, hfe⟩
  have hg := (replayLayers_present layers p fe hfe).2
  unfold basenameIsWh
  cases hfn : fileName p with
  | none => rfl
  | some s =>
    have hs : stripWh s = none := by simpa [hfn] using hg
    simp [hs]

/-- C10, witness. -/
theorem c10_no_whiteout_markers_witness :
    basenameIsWh ⟨false, ["a"]⟩ = false :=
  c10_no_whiteout_markers c10_layers
    [⟨⟨false, ["a"]⟩, hdrFile 1, [49]⟩] rfl ⟨false, ["a"]⟩ (by decide)

/-! Lemmas about the history-rewrite loop of `squash_layers`. -/

theorem nonEmptyCount_nil : nonEmptyCount [] = 0 := rfl

theorem nonEmptyCount_cons (e : HistoryEntry) (l : List HistoryEntry) :
    nonEmptyCount (e :: l) =
      nonEmptyCount l + (if e.empty_layer ≠ some true then 1 else 0) := by
  simp [nonEmptyCount, List.countP_cons]

theorem nonEmptyCount_append (l₁ l₂ : List HistoryEntry) :
    nonEmptyCount (l₁ ++ l₂) = nonEmptyCount l₁ + nonEmptyCount l₂ := by
  simp [nonEmptyCount, List.countP_append]

theorem nonEmptyCount_reverse (l : List HistoryEntry) :
    nonEmptyCount l.reverse = nonEmptyCount l := by
  simp [nonEmptyCount]

/-- Once the running non-empty count has reached `k`, the scan removes
nothing further. -/
theorem removeLoop_of_le (k : Nat) :
    ∀ (r : List HistoryEntry) (ne : Nat), k ≤ ne → removeLoop k r ne = 0 := by
  intro r
  induction r with
  | nil => intro ne _; rfl
  | cons e rest ih =>
    intro ne h
    unfold removeLoop
    split
    · rw [if_neg (by omega)]
    · rw [if_neg (by omega)]
      exact ih ne h

/-- The scan of the reversed history removes a prefix holding exactly
`min (k - ne) (count)` non-empty entries, and never more entries than the
list has. -/
theorem removeLoop_spec (k : Nat) :
    ∀ (r : List HistoryEntry) (ne : Nat), ne ≤ k →
      nonEmptyCount (r.take (removeLoop k r ne)) =
        min (k - ne) (nonEmptyCount r) ∧
      removeLoop k r ne ≤ r.length := by
  intro r
  induction r with
  | nil =>
    intro ne _
    exact ⟨by simp [removeLoop, nonEmptyCount], by simp [removeLoop]⟩
  | cons e rest ih =>
    intro ne h
    unfold removeLoop
    split
    next hne =>
      by_cases hle : ne + 1 ≤ k
      · rw [if_pos hle]
        obtain ⟨ih1, ih2⟩ := ih (ne + 1) hle
        constructor
        · rw [Nat.add_comm 1 (removeLoop k rest (ne + 1)), List.take_succ_cons,
            nonEmptyCount_cons, if_pos hne, nonEmptyCount_cons, if_pos hne, ih1]
          omega
        · simp only [List.length_cons]
          omega
      · rw [if_neg hle]
        have hk : ne = k := by omega
        subst hk
        constructor
        · simp [nonEmptyCount]
        · simp
    next hne =>
      by_cases hlt : ne < k
      · rw [if_pos hlt]
        obtain ⟨ih1, ih2⟩ := ih ne h
        constructor
        · rw [Nat.add_comm 1 (removeLoop k rest ne), List.take_succ_cons,
            nonEmptyCount_cons, if_neg hne, nonEmptyCount_cons, if_neg hne, ih1]
          omega
        · simp only [List.length_cons]
          omega
      · rw [if_neg hlt]
        have hk : ne = k := by omega
        rw [hk, removeLoop_of_le k rest k (Nat.le_refl k)]
        constructor
        · simp [nonEmptyCount]
        · simp

/-- Taking all but the last `|Y|` elements of `X ++ Y` yields `X`. -/
theorem take_sub_of_append (X Y : List HistoryEntry) :
    (X ++ Y).take ((X ++ Y).length - Y.length) = X := by
  have h : (X ++ Y).length - Y.length = X.length := by simp
  rw [h, List.take_left]

/-- C2.  Starting from a state where `|manifest.layers| == |rootfs.diff_ids|
== count(history with empty_layer != Some(true))`, the rewrite performed by
`squash_layers` for a merge of the last `k` layers (1 ≤ k ≤ layer count)
restores the equality, and each of the three cardinalities decreases by
exactly `k - 1`. -/
theorem c2_squash_cardinalities (st : SquashState) (k : Nat) (d now : String)
    (hk1 : 1 ≤ k) (hk2 : k ≤ st.manifest_layers.length)
    (hdiff : st.diff_ids.length = st.manifest_layers.length)
    (hhist : nonEmptyCount st.history = st.manifest_layers.length) :
    (squash_layers_update st k d now).manifest_layers.length =
      (squash_layers_update st k d now).diff_ids.length ∧
    (squash_layers_update st k d now).manifest_layers.length =
      nonEmptyCount (squash_layers_update st k d now).history ∧
    (squash_layers_update st k d now).manifest_layers.length + (k - 1) =
      st.manifest_layers.length ∧
    (squash_layers_update st k d now).diff_ids.length + (k - 1) =
      st.diff_ids.length ∧
    nonEmptyCount (squash_layers_update st k d now).history + (k - 1) =
      nonEmptyCount st.history := by
  have hml : (squash_layers_update st k d now).manifest_layers.length =
      (st.manifest_layers.length - k) + 1 := by
    simp only [squash_layers_update, List.length_append, List.length_take,
      List.length_cons, List.length_nil]
    omega
  have hdl : (squash_layers_update st k d now).diff_ids.length =
      (st.manifest_layers.length - k) + 1 := by
    simp only [squash_layers_update, List.length_append, List.length_take,
      List.length_cons, List.length_nil]
    omega
  have hrevc : nonEmptyCount st.history.reverse = st.manifest_layers.length := by
    rw [nonEmptyCount_reverse, hhist]
  obtain ⟨hspec1, hspec2⟩ :=
    removeLoop_spec k st.history.reverse 0 (Nat.zero_le k)
  have htk : nonEmptyCount
      (st.history.reverse.take (history_entries_to_remove st.history k)) = k := by
    unfold history_entries_to_remove
    rw [hspec1, hrevc]
    omega
  have hlt : history_entries_to_remove st.history k ≤ st.history.length := by
    unfold history_entries_to_remove
    simpa using hspec2
  have hsplit :
      st.history.reverse.take (history_entries_to_remove st.history k) ++
        st.history.reverse.drop (history_entries_to_remove st.history k) =
      st.history.reverse := List.take_append_drop _ _
  have hcount_split : nonEmptyCount
      (st.history.reverse.drop (history_entries_to_remove st.history k)) =
      st.manifest_layers.length - k := by
    have h0 := congrArg nonEmptyCount hsplit
    rw [nonEmptyCount_append, htk, hrevc] at h0
    omega
  have hhrev : st.history =
      (st.history.reverse.drop (history_entries_to_remove st.history k)).reverse ++
        (st.history.reverse.take (history_entries_to_remove st.history k)).reverse := by
    have h0 := congrArg List.reverse hsplit
    rw [List.reverse_append, List.reverse_reverse] at h0
    exact h0.symm
  have htake_eq : st.history.take
        (st.history.length - history_entries_to_remove st.history k) =
      (st.history.reverse.drop (history_entries_to_remove st.history k)).reverse := by
    have hYlen : ((st.history.reverse.take
        (history_entries_to_remove st.history k)).reverse).length =
        history_entries_to_remove st.history k := by
      simp
      omega
    have h := take_sub_of_append
      (st.history.reverse.drop (history_entries_to_remove st.history k)).reverse
      (st.history.reverse.take (history_entries_to_remove st.history k)).reverse
    rw [← hhrev, hYlen] at h
    exact h
  have hhl : nonEmptyCount (squash_layers_update st k d now).history =
      (st.manifest_layers.length - k) + 1 := by
    show nonEmptyCount
      (st.history.take
        (st.history.length - history_entries_to_remove st.history k) ++
        [⟨now, "squash: merged " ++ toString k ++ " layers", some false⟩]) =
      (st.manifest_layers.length - k) + 1
    rw [nonEmptyCount_append, htake_eq, nonEmptyCount_reverse, hcount_split]
    rfl
  refine ⟨?_, ?_, ?_, ?_, ?_⟩
  · rw [hml, hdl]
  · rw [hml, hhl]
  · rw [hml]; omega
  · rw [hdl, hdiff]; omega
  · rw [hhl, hhist]; omega

/-- C2, witness. -/
theorem c2_squash_cardinalities_witness :
    (squash_layers_update c2_state 2 "sha256:new" "t5").manifest_layers.length =
      (squash_layers_update c2_state 2 "sha256:new" "t5").diff_ids.length ∧
    (squash_layers_update c2_state 2 "sha256:new" "t5").manifest_layers.length =
      nonEmptyCount (squash_layers_update c2_state 2 "sha256:new" "t5").history ∧
    (squash_layers_update c2_state 2 "sha256:new" "t5").manifest_layers.length + (2 - 1) =
      c2_state.manifest_layers.length ∧
    (squash_layers_update c2_state 2 "sha256:new" "t5").diff_ids.length + (2 - 1) =
      c2_state.diff_ids.length ∧
    nonEmptyCount (squash_layers_update c2_state 2 "sha256:new" "t5").history + (2 - 1) =
      nonEmptyCount c2_state.history :=
  c2_squash_cardinalities c2_state 2 "sha256:new" "t5" (by decide) (by decide)
    (by decide) (by decide)

/-- C9.  `merge_latest_layers` rejects `count = 0` and
`count > |layers|` with `InvalidInput` (the latter message naming both the
requested and the available count), and otherwise hands the last `count`
layers to `merge_layers`; `merge_from_layer_id` rejects prefixes shorter
than 8 characters with `InvalidInput` and unmatched prefixes with
`LayerNotFound`. -/
theorem c9_selection_validation (layers : List LayerInfo) :
    (merge_latest_layers layers 0 =
      Except.error (SquashError.InvalidInput "Cannot merge 0 layers")) ∧
    (∀ n, layers.length < n →
      merge_latest_layers layers n = Except.error (SquashError.InvalidInput
        ("Cannot merge " ++ toString n ++ " layers, only " ++
          toString layers.length ++ " layers available"))) ∧
    (∀ n, 1 ≤ n → n ≤ layers.length →
      merge_latest_layers layers n =
        Except.ok (layers.drop (layers.length - n))) ∧
    (∀ layer_id : String, layer_id.length < 8 →
      merge_from_layer_id layers layer_id =
        Except.error (SquashError.InvalidInput
          ("Layer ID must be at least 8 characters long, got: " ++
            toString layer_id.length))) ∧
    (∀ layer_id : String, 8 ≤ layer_id.length →
      (∀ l ∈ layers, strIsPrefixOf layer_id l.digest = false) →
      merge_from_layer_id layers layer_id =
        Except.error (SquashError.LayerNotFound layer_id)) := by
  refine ⟨rfl, ?_, ?_, ?_, ?_⟩
  · intro n hn
    unfold merge_latest_layers
    rw [if_neg (by omega), if_pos hn]
  · intro n h1 h2
    unfold merge_latest_layers
    rw [if_neg (by omega), if_neg (by omega)]
  · intro layer_id hlen
    unfold merge_from_layer_id
    rw [if_pos hlen]
  · intro layer_id hlen hnomatch
    unfold merge_from_layer_id
    rw [if_neg (by omega)]
    have hidx : layers.findIdx? (fun l => strIsPrefixOf layer_id l.digest) = none :=
      List.findIdx?_eq_none_iff.mpr hnomatch
    rw [hidx]

/-- C9, witness. -/
theorem c9_selection_validation_witness :
    (merge_latest_layers c9_layers 0 =
      Except.error (SquashError.InvalidInput "Cannot merge 0 layers")) ∧
    (merge_latest_layers c9_layers 5 = Except.error (SquashError.InvalidInput
      ("Cannot merge " ++ toString 5 ++ " layers, only " ++
        toString c9_layers.length ++ " layers available"))) ∧
    (merge_latest_layers c9_layers 1 =
      Except.ok (c9_layers.drop (c9_layers.length - 1))) ∧
    (merge_from_layer_id c9_layers "abc" =
      Except.error (SquashError.InvalidInput
        ("Layer ID must be at least 8 characters long, got: " ++
          toString "abc".length))) ∧
    (merge_from_layer_id c9_layers "sha256:zz" =
      Except.error (SquashError.LayerNotFound "sha256:zz")) := by
  obtain ⟨h1, h2, h3, h4, h5⟩ := c9_selection_validation c9_layers
  exact ⟨h1, h2 5 (by decide), h3 1 (by decide) (by decide),
    h4 "abc" (by decide), h5 "sha256:zz" (by decide) (by decide)⟩

/-- C8, counterexample.  The claim states that any failure after the merged
tar file was created unlinks it before the error propagates.  A failure
while writing the tar (`create_merged_tar_from_vfs` propagates it with `?`,
layer.rs line 192) leaves the partially written file in place: only the
digest computation is wrapped in the cleanup handler (lines 195-198). -/
theorem c8_counterexample :
    merge_layers_finish (Except.ok ()) (Except.error "disk full")
        (Except.ok "sha256:e3b0") (Except.ok 0) "merged_layer_u.tar" =
      (Except.error "disk full", true) :=
  rfl

/-- C8, amended: the partially written merged tar is unlinked before the
error propagates exactly when the failure happens during digest computation;
a failure during tar emission (after `File::create` succeeded) leaves the
file in the working directory. -/
theorem c8_cleanup_scope (write_err digest_err : String)
    (digest_res : Except String String) (meta_res : Except String Nat)
    (merged_path : String) :
    merge_layers_finish (Except.ok ()) (Except.ok ())
        (Except.error digest_err) meta_res merged_path =
      (Except.error digest_err, false) ∧
    merge_layers_finish (Except.ok ()) (Except.error write_err)
        digest_res meta_res merged_path =
      (Except.error write_err, true) :=
  ⟨rfl, rfl⟩

/-- C8, witness. -/
theorem c8_cleanup_scope_witness :
    merge_layers_finish (Except.ok ()) (Except.ok ())
        (Except.error "read failed") (Except.ok 7) "merged_layer_u.tar" =
      (Except.error "read failed", false) ∧
    merge_layers_finish (Except.ok ()) (Except.error "disk quota")
        (Except.ok "sha256:aa") (Except.ok 7) "merged_layer_u.tar" =
      (Except.error "disk quota", true) :=
  c8_cleanup_scope "disk quota" "read failed" (Except.ok "sha256:aa")
    (Except.ok 7) "merged_layer_u.tar"

/-- C7, counterexample.  The claim states that `TarBuilder::build` emits the
staged entries sorted by name.  `build` calls tar-rs `append_dir_all`, which
appends files in `fs::read_dir` traversal order and performs no sorting:
for the staged files `a` and `b`, the legal enumeration order `b, a`
(that is in fact the staging store's own order here) produces a tar whose
entries are not sorted by name. -/
theorem c7_counterexample :
    c7_listing.Perm (stage_files [("a", [2]), ("b", [1])]) ∧
    ¬ ((tar_builder_build c7_listing).map Prod.fst).Sorted nameLe := by
  constructor
  · exact List.Perm.refl _
  · intro hs
    have h := List.rel_of_sorted_cons hs "a" (by simp [tar_builder_build, c7_listing])
    exact absurd h (by decide)

/-- C7, amended: `TarBuilder::build` emits exactly the staged files — same
entries, same multiset — in the order the staging directory is enumerated by
the filesystem; no sorting by name is applied, so the entry order is
whatever `fs::read_dir` yields. -/
theorem c7_build_enumeration_order (ops : List (String × List Nat))
    (dir_listing : List (String × List Nat))
    (hperm : dir_listing.Perm (stage_files ops)) :
    tar_builder_build dir_listing = dir_listing ∧
    (tar_builder_build dir_listing).Perm (stage_files ops) ∧
    ∀ e, e ∈ tar_builder_build dir_listing ↔ e ∈ stage_files ops :=
  ⟨rfl, hperm, fun _ => hperm.mem_iff⟩

/-- C7, witness. -/
theorem c7_build_enumeration_order_witness :
    tar_builder_build c7_listing = c7_listing ∧
    (tar_builder_build c7_listing).Perm (stage_files [("a", [2]), ("b", [1])]) ∧
    ∀ e, e ∈ tar_builder_build c7_listing ↔
      e ∈ stage_files [("a", [2]), ("b", [1])] :=
  c7_build_enumeration_order [("a", [2]), ("b", [1])] c7_listing
    (List.Perm.refl _)

end Squash
